import Mathlib

/-!
Verification of the dictionary-lookup core of FreeLingvo
(src/main/python/parsing_and_formatting.py).

Text is modelled as a list of Unicode scalar values (`Str`).  The Python
standard-library operations the module calls (`str.strip`, `str.casefold`,
`unicodedata.normalize('NFC', -)`, `re.split` on one-or-more whitespace,
and the two tag patterns) are embedded directly; the case-folding and NFC
character tables are restricted to a documented finite fragment of the
Unicode data (ASCII letters, the Latin-1 letters actually exercised and
their combining sequences), with the table-driven algorithms kept faithful
to the library semantics.  All combining marks included in the fragment
share canonical combining class 230, so the canonical-reordering step of
NFC is the identity on the fragment and is not materialised.
-/

namespace FreeLingvo

/-- Unicode text as a list of scalar values. -/
abbrev Str : Type := List Char

/-- Python's whitespace class: the characters matched by whitespace
patterns in a `str` regular expression and stripped by `str.strip()`. -/
def isPySpace (c : Char) : Bool :=
  c = ' ' || c = '\t' || c = '\n' || c = '\r' || c = '\x0b' || c = '\x0c' ||
  c = '\x1c' || c = '\x1d' || c = '\x1e' || c = '\x1f' || c = '\x85' || c = '\xa0' ||
  c = '\u1680' || ('\u2000' ≤ c && c ≤ '\u200a') || c = '\u2028' || c = '\u2029' ||
  c = '\u202f' || c = '\u205f' || c = '\u3000'

/-- Python `str.strip()`: drop leading and trailing whitespace. -/
def pyStrip (s : Str) : Str :=
  ((s.dropWhile isPySpace).reverse.dropWhile isPySpace).reverse

/-- Scanner of Python whitespace `re.split`.  `some acc` means the scan
is inside a token whose characters so far are `acc` reversed; `none`
means it is inside a whitespace run.  Reaching the end flushes the
current token, or emits a trailing empty piece after a whitespace run,
exactly as `re.split` does when the string ends with a separator
match. -/
def splitWSGo : Str → Option Str → List Str
  | [], some acc => [acc.reverse]
  | [], none => [[]]
  | c :: cs, some acc =>
    if isPySpace c then acc.reverse :: splitWSGo cs none
    else splitWSGo cs (some (c :: acc))
  | c :: cs, none =>
    if isPySpace c then splitWSGo cs none else splitWSGo cs (some [c])

/-- Python `re.split` on one-or-more whitespace: the pieces of `s` between
maximal whitespace runs, including the empty pieces produced before a
leading run, after a trailing run, and for the empty string (splitting
`''` gives `['']`). -/
def splitWS (s : Str) : List Str := splitWSGo s (some [])

/-- The full case-folding table of `str.casefold()`, restricted to the
modelled fragment: ASCII capitals, `A`-grave, `E`-acute, and sharp s
(which folds to a two-character expansion). -/
def casefoldTable : List (Char × Str) :=
  [('A', ['a']), ('B', ['b']), ('C', ['c']), ('D', ['d']),
   ('E', ['e']), ('F', ['f']), ('G', ['g']), ('H', ['h']),
   ('I', ['i']), ('J', ['j']), ('K', ['k']), ('L', ['l']),
   ('M', ['m']), ('N', ['n']), ('O', ['o']), ('P', ['p']),
   ('Q', ['q']), ('R', ['r']), ('S', ['s']), ('T', ['t']),
   ('U', ['u']), ('V', ['v']), ('W', ['w']), ('X', ['x']),
   ('Y', ['y']), ('Z', ['z']),
   ('\u00c0', ['\u00e0']), ('\u00c9', ['\u00e9']), ('\u00df', ['s', 's'])]

/-- Case-fold one character.  Characters without a table entry fold to
themselves. -/
def casefoldChar (c : Char) : Str := (casefoldTable.lookup c).getD [c]

/-- Python `str.casefold()`: concatenate the per-character foldings. -/
def pyCasefold (s : Str) : Str := s.flatMap casefoldChar

/-- Canonical decomposition table of the modelled fragment: the
precomposed Latin letters present in the case-folding fragment together
with their sequences of base letter and combining mark
(acute U+0301, grave U+0300, both of canonical combining class 230). -/
def decompTable : List (Char × Str) :=
  [('\u00e9', ['e', '\u0301']), ('\u00c9', ['E', '\u0301']),
   ('\u00e0', ['a', '\u0300']), ('\u00c0', ['A', '\u0300'])]

/-- Fully decompose one character (the fragment's decompositions are
already fully decomposed). -/
def decomposeChar (c : Char) : Str := (decompTable.lookup c).getD [c]

/-- Canonical decomposition of a string. -/
def canonDecompose (s : Str) : Str := s.flatMap decomposeChar

/-- Primary-composite table: the inverse of `decompTable`. -/
def compTable : List ((Char × Char) × Char) :=
  [(('e', '\u0301'), '\u00e9'), (('E', '\u0301'), '\u00c9'),
   (('a', '\u0300'), '\u00e0'), (('A', '\u0300'), '\u00c0')]

/-- Compose an adjacent pair, when a primary composite exists. -/
def composePair (a b : Char) : Option Char := compTable.lookup (a, b)

/-- Canonical composition with a current leftmost character `a`: when `a`
and the next character form a primary composite the composite replaces
them, otherwise `a` is emitted. -/
def composeRun (a : Char) : Str → Str
  | [] => [a]
  | b :: r =>
    match composePair a b with
    | some c => composeRun c r
    | none => a :: composeRun b r

/-- Canonical composition: repeatedly replace an adjacent pair by its
primary composite.  On the modelled fragment (one combining class, no
multi-mark composites) this agrees with the Unicode canonical composition
algorithm. -/
def compose : Str → Str
  | [] => []
  | a :: r => composeRun a r

/-- `unicodedata.normalize` with form NFC: canonical decomposition
followed by canonical ordering and composition.  Every combining mark of
the fragment has canonical combining class 230, so the ordering step is
the identity. -/
def nfc (s : Str) : Str := compose (canonDecompose s)

/-- The successful branch of `normalize_nfc`: NFC of
`text.strip().casefold()`. -/
def normalizeStr (s : Str) : Str := nfc (pyCasefold (pyStrip s))

/-- `normalize_nfc(text)`.  A non-string argument (an absent `text` field
of an element, i.e. `none`) raises `AttributeError` inside the `try`, and
the function falls through and returns `None`. -/
def normalize_nfc : Option Str → Option Str
  | none => none
  | some s => some (normalizeStr s)

/-- A parsed XML element: qualified tag, optional leading text, optional
trailing text (the tail), attributes, and the ordered list of child
elements. -/
inductive Elem : Type where
  | mk (tag : Str) (text : Option Str) (tail : Option Str)
       (attrs : List (Str × Str)) (children : List Elem)

/-- The qualified tag name of an element. -/
def Elem.tag : Elem → Str
  | mk t _ _ _ _ => t

/-- The leading text of an element. -/
def Elem.text : Elem → Option Str
  | mk _ x _ _ _ => x

/-- The trailing text (tail) of an element. -/
def Elem.tail : Elem → Option Str
  | mk _ _ tl _ _ => tl

/-- The attributes of an element. -/
def Elem.attrs : Elem → List (Str × Str)
  | mk _ _ _ a _ => a

/-- The child elements of an element. -/
def Elem.children : Elem → List Elem
  | mk _ _ _ _ ch => ch

/-- A tag name qualified with the TEI namespace, as produced by
`ElementTree` for a document in `http://www.tei-c.org/ns/1.0`. -/
def teiTag (nm : String) : Str :=
  "\x7bhttp://www.tei-c.org/ns/1.0\x7d".toList ++ nm.toList

mutual
/-- An element followed by its proper descendants, in document order. -/
def selfAndDescendants : Elem → List Elem
  | Elem.mk t x tl a ch => Elem.mk t x tl a ch :: descendantsList ch
/-- All proper descendants of the elements of a list, in document order
(each element followed by its own subtree), as `findall('.//...')`
enumerates them. -/
def descendantsList : List Elem → List Elem
  | [] => []
  | e :: es => selfAndDescendants e ++ descendantsList es
end

/-- `element.findall('.//q')` for a qualified tag `q`: the proper
descendants of `e` carrying that tag, in document order. -/
def findallDesc (e : Elem) (tag : Str) : List Elem :=
  (descendantsList e.children).filter (fun x => x.tag == tag)

/-- A word character of the classification pattern (letters, digits and
the underscore; the tags of the module are all ASCII). -/
def isWordChar (c : Char) : Bool := c.isAlphanum || c = '_'

/-- The maximal run of word characters at the front of a string. -/
def takeWordRun (s : Str) : Str := s.takeWhile isWordChar

/-- Backtracking of the greedy dot in the classification pattern: the word
run after the rightmost closing brace that is immediately followed by a
word character, if any. -/
def lastBraceWord : Str → Option Str
  | [] => none
  | c :: rest =>
    if c = '\x7d' then
      match lastBraceWord rest with
      | some w => some w
      | none =>
        match rest with
        | d :: _ => if isWordChar d then some (takeWordRun rest) else none
        | [] => none
    else lastBraceWord rest

/-- The local tag name extracted by the classification pattern: an
optional brace-delimited namespace prefix followed by at least one word
character.  `none` models the `AttributeError` raised by `.group(2)` when
the pattern does not match the tag at all. -/
def localName : Str → Option Str
  | [] => none
  | c :: cs =>
    if c = '\x7b' then lastBraceWord cs
    else if isWordChar c then some (takeWordRun (c :: cs)) else none

/-- Does the pattern `p` occur at the very front of `s`? -/
def leadsWith : Str → Str → Bool
  | [], _ => true
  | _ :: _, [] => false
  | p :: ps, c :: cs => p = c && leadsWith ps cs

/-- Does one of the alternatives occur at the front of `t`? -/
def altStartHit (alts : List Str) (t : Str) : Bool :=
  alts.any (fun a => leadsWith a t)

/-- The suffixes of a string that follow one of its closing braces. -/
def afterBraces : Str → List Str
  | [] => []
  | c :: cs => if c = '\x7d' then cs :: afterBraces cs else afterBraces cs

/-- The two tag patterns of the pre-formatting pass, as `re.match`
decides them: an optional group of an opening brace, any characters and a
closing brace, followed by one of the alternatives.  The match is
anchored only at the start, so it succeeds whenever an alternative occurs
as a prefix of the tag (after the optional brace-delimited prefix). -/
def nsAltMatch (alts : List Str) (t : Str) : Bool :=
  altStartHit alts t ||
  (match t with
   | c :: cs => c = '\x7b' && (afterBraces cs).any (altStartHit alts)
   | [] => false)

/-- The first pre-formatting pattern: `pron`, `hyph`, `syll`, `stress`. -/
def brMatch (t : Str) : Bool :=
  nsAltMatch (["pron", "hyph", "syll", "stress"].map String.toList) t

/-- The second pre-formatting pattern: `gramGrp`, `re`, `etym`,
`dictScrap`. -/
def parenTagMatch (t : Str) : Bool :=
  nsAltMatch (["gramGrp", "re", "etym", "dictScrap"].map String.toList) t

/-- Is `c` the first character of `s`? -/
def firstIs (c : Char) (s : Str) : Bool :=
  match s with
  | d :: _ => d = c
  | [] => false

/-- Is `c` the last character of `s`? -/
def lastIs (c : Char) (s : Str) : Bool :=
  match s.getLast? with
  | some d => d = c
  | none => false

/-- The new leading text installed by the pre-formatting pass of
`element_to_text`: bracket wrapping for the first tag pattern, a leading
parenthesis for the second, otherwise unchanged. -/
def preText (tag : Str) (text : Option Str) : Option Str :=
  if brMatch tag then
    match text with
    | some t => if !firstIs '[' t && !lastIs ']' t then some ('[' :: (t ++ [']'])) else some t
    | none => none
  else if parenTagMatch tag then
    match text with
    | none => some ['(']
    | some t => if firstIs '(' t then some t else some ('(' :: t)
  else text

/-- The new trailing text installed by the pre-formatting pass: a closing
parenthesis for the second tag pattern, otherwise unchanged (the first
pattern's branch never touches the tail). -/
def preTail (tag : Str) (tail : Option Str) : Option Str :=
  if brMatch tag then tail
  else if parenTagMatch tag then
    match tail with
    | none => some [')']
    | some t => if lastIs ')' t then some t else some (t ++ [')'])
  else tail

/-- The pre-formatting pass of `element_to_text` on one element: the
in-place mutation of `element.text` and `element.tail` performed before
the text-building pass. -/
def preformat : Elem → Elem
  | Elem.mk tag text tl ats ch => Elem.mk tag (preText tag text) (preTail tag tl) ats ch

/-- The `simple_elements` tuple of `element_to_text`. -/
def simple_elements : List Str :=
  ["orth", "pron", "hyph", "syll", "stress",
   "gram", "gen", "number", "case", "per", "tsn",
   "mood", "iType", "pos", "subc", "colloc", "quote",
   "lang", "date", "mentioned", "gloss", "ref",
   "ptr", "usg", "def", "lbl", "note", "oRef", "pRef"].map String.toList

/-- The `complex_elements` tuple of `element_to_text`. -/
def complex_elements : List Str :=
  ["hom", "form", "sense", "etym", "re", "dictScrap"].map String.toList

/-- Python `sep.join(parts)`. -/
def joinWith (sep : Str) : List Str → Str
  | [] => []
  | [x] => x
  | x :: y :: xs => x ++ sep ++ joinWith sep (y :: xs)

/-- A nullable text field contributed to the output: stripped when
present, empty when absent. -/
def stripOpt : Option Str → Str
  | none => []
  | some t => pyStrip t

mutual
/-- `element_to_text(element)`: the pre-formatting pass mutates the
element's text and tail in place, then the tag is classified by its local
name and the output text is built from the (mutated) own text, the
recursively rendered direct children, and the (mutated) tail.  The result
carries the rendered text together with the element as it stands after
the call (the source mutates its argument).  `none` models the
`AttributeError` escaping the call when the classification pattern does
not match the tag. -/
def element_to_text : Elem → Option (Str × Elem)
  | Elem.mk tag text0 tail0 ats children =>
    let text1 := preText tag text0
    let tail1 := preTail tag tail0
    match localName tag with
    | none => none
    | some loc =>
      match elems_to_text children with
      | none => none
      | some rs =>
        let own := stripOpt text1
        let tl := stripOpt tail1
        let body :=
          if simple_elements.contains loc then
            own ++ joinWith [' '] (rs.map Prod.fst) ++ tl
          else if complex_elements.contains loc then
            (match text1 with
             | none => "<br/>".toList
             | some t => "<br/>".toList ++ pyStrip t) ++
              joinWith (", ".toList) (rs.map Prod.fst) ++ tl
          else
            own ++ joinWith (", ".toList) (rs.map Prod.fst) ++ tl
        some (body, Elem.mk tag text1 tail1 ats (rs.map Prod.snd))
/-- Render a list of sibling elements left to right, propagating a raised
exception. -/
def elems_to_text : List Elem → Option (List (Str × Elem))
  | [] => some []
  | e :: es =>
    match element_to_text e, elems_to_text es with
    | some r, some rs => some (r :: rs)
    | _, _ => none
end

mutual
/-- The in-place text mutation of `highlight_orths_and_quoutes` applied
to one node and its whole subtree: an `orth` or `quote` element with
truthy (present and non-empty) text gets its text wrapped in bold
markup. -/
def highlightElem : Elem → Elem
  | Elem.mk tag text tl ats children =>
    let text' :=
      if tag == teiTag "orth" || tag == teiTag "quote" then
        match text with
        | some (c :: cs) => some ("<b>".toList ++ (c :: cs) ++ "</b>".toList)
        | other => other
      else text
    Elem.mk tag text' tl ats (highlightList children)
/-- `highlightElem` over a list of siblings. -/
def highlightList : List Elem → List Elem
  | [] => []
  | e :: es => highlightElem e :: highlightList es
end

/-- `highlight_orths_and_quoutes(entry)`: every `orth` and `quote`
element found anywhere below the entry root (`findall('.//...')` never
yields the root itself) gets its non-empty text wrapped in bold markup. -/
def highlight_orths_and_quoutes : Elem → Elem
  | Elem.mk tag text tl ats children => Elem.mk tag text tl ats (highlightList children)

/-- The headword-bearing elements of an entry:
`entry.findall('.//xmlns:orth') + entry.findall('.//xmlns:quote')`. -/
def headwordForms (entry : Elem) : List Elem :=
  findallDesc entry (teiTag "orth") ++ findallDesc entry (teiTag "quote")

/-- The per-element test of `have_matches`: the normalized text of the
element is a member of the word list.  A `None` normalization result (an
element without text) is never a member of a list of strings. -/
def formHit (words : List Str) (el : Elem) : Bool :=
  match normalize_nfc el.text with
  | some t => words.contains t
  | none => false

/-- `have_matches(entry, words)`: true as soon as one orthographic or
quoted form of the entry normalizes to a member of `words` (the Python
function returns `None`, which is falsy, when the loop finds nothing). -/
def have_matches (entry : Elem) (words : List Str) : Bool :=
  (headwordForms entry).any (formHit words)

/-- Python `range(hi, lo, -1)`: `hi, hi-1, ..., lo+1`. -/
def rangeDown (hi lo : Nat) : List Nat := (List.range' (lo + 1) (hi - lo)).reverse

/-- `parse_sentence(sentence)`: split on whitespace runs, normalize every
word, then join `words[i:j]` with single spaces for `i` ranging left to
right and `j` stepping down from `len(words)` to `i+1`. -/
def parse_sentence (sentence : Str) : List Str :=
  let words := (splitWS sentence).map normalizeStr
  (List.range words.length).flatMap (fun i =>
    (rangeDown words.length i).map (fun j => joinWith [' '] ((words.drop i).take (j - i))))

/-- `copy.deepcopy(entry)`: an independent copy of the tree.  Under value
semantics the copy is the value itself; mutations performed on the copy
are threaded through the explicit results of `highlightElem` and
`element_to_text` and never reach the original. -/
def deepcopy (e : Elem) : Elem := e

/-- The per-entry body of `translate`'s loop: highlight the copy, render
it, and keep the rendered text. -/
def renderEntry (e : Elem) : Option Str :=
  (element_to_text (highlight_orths_and_quoutes e)).map Prod.fst

/-- `translate`'s rendering loop over the matched copies; a raised
exception abandons the whole translation list. -/
def renderLoop : List Elem → Option (List Str)
  | [] => some []
  | e :: es =>
    match element_to_text (highlight_orths_and_quoutes e) with
    | none => none
    | some r =>
      match renderLoop es with
      | none => none
      | some ts => some (r.1 :: ts)

/-- `translate(sentence, entries)`: decompose the sentence once, filter
the entries through `have_matches`, deep-copy each match, highlight and
render the copies.  The pair carries the returned translation list
(`none` for a propagating exception) together with the state of the
supplied entry list after the call. -/
def translate (sentence : Str) (entries : List Elem) : Option (List Str) × List Elem :=
  let words := parse_sentence sentence
  (renderLoop ((entries.filter (fun e => have_matches e words)).map deepcopy), entries)

/-- `load_entries`, modelled on the parsed document root (reading and
parsing the file is the XML library's work): all `entry` elements of the
tree in document order, followed by all `entryFree` elements in document
order. -/
def load_entries (root : Elem) : List Elem :=
  findallDesc root (teiTag "entry") ++ findallDesc root (teiTag "entryFree")

/-- The slice enumeration the specification describes: for each start
index `i` from left to right, the space-joins of the contiguous slices
starting at `i`, longest first. -/
def orderedSlices (ws : List Str) : List Str :=
  (List.range ws.length).flatMap (fun i =>
    (rangeDown (ws.length - i) 0).map (fun len => joinWith [' '] ((ws.drop i).take len)))

/-- The entries of `es` that match the decomposed sentence `s`, in their
supplied order. -/
def matchedEntries (s : Str) (es : List Elem) : List Elem :=
  es.filter (fun e => have_matches e (parse_sentence s))

/-- All entry elements of a document in plain document order, regardless
of kind. -/
def docOrderEntries (root : Elem) : List Elem :=
  (descendantsList root.children).filter
    (fun e => e.tag == teiTag "entry" || e.tag == teiTag "entryFree")

/-- Sample orthographic form with text `dog`. -/
def sampleOrth : Elem := Elem.mk (teiTag "orth") (some "dog".toList) none [] []

/-- Sample entry whose only headword is `dog`. -/
def sampleEntry : Elem := Elem.mk (teiTag "entry") none none [] [sampleOrth]

/-- An entry with no headword elements at all. -/
def bareEntry : Elem := Elem.mk (teiTag "entry") (some "x".toList) none [] []

/-- An orthographic form whose text is a single space, so that it
normalizes to the empty string. -/
def spaceOrth : Elem := Elem.mk (teiTag "orth") (some " ".toList) none [] []

/-- An entry whose only headword text is whitespace. -/
def spaceEntry : Elem := Elem.mk (teiTag "entry") none none [] [spaceOrth]

/-- A `ref` element with text `x` and no tail. -/
def refElem : Elem := Elem.mk "ref".toList (some "x".toList) none [] []

/-- A pronunciation element with unbracketed text. -/
def pronKat : Elem := Elem.mk (teiTag "pron") (some "kæt".toList) none [] []

/-- A pronunciation element whose text is already bracketed. -/
def pronKatBr : Elem := Elem.mk (teiTag "pron") (some "[kæt]".toList) none [] []

/-- A `gramGrp` element with leading and trailing text. -/
def gramEx : Elem := Elem.mk (teiTag "gramGrp") (some "x".toList) (some "y".toList) [] []

/-- A free-form entry appearing first in document order. -/
def freeA : Elem := Elem.mk (teiTag "entryFree") (some "a".toList) none [] []

/-- A structured entry appearing second in document order. -/
def entB : Elem := Elem.mk (teiTag "entry") (some "b".toList) none [] []

/-- A document root whose children are `freeA` then `entB`: an
`entryFree` element precedes an `entry` element in document order. -/
def mixedRoot : Elem := Elem.mk (teiTag "TEI") none none [] [freeA, entB]

/-- Characters without a case-folding: `casefoldChar` leaves each of them
unchanged. -/
def cfUnmapped (l : Str) : Prop := ∀ c ∈ l, casefoldTable.lookup c = none

/-- Characters without a canonical decomposition. -/
def dcUnmapped (l : Str) : Prop := ∀ c ∈ l, decompTable.lookup c = none

/-- The head of the list, if any, is not whitespace. -/
def noLeadSp (l : Str) : Prop := ∀ c, l.head? = some c → isPySpace c = false

/-- The last element of the list, if any, is not whitespace. -/
def noTrailSp (l : Str) : Prop := ∀ c, l.getLast? = some c → isPySpace c = false

theorem formHit_eq_true (words : List Str) (el : Elem) :
    formHit words el = true ↔ ∃ t, normalize_nfc el.text = some t ∧ t ∈ words := by
  unfold formHit
  cases h : normalize_nfc el.text with
  | none => simp
  | some t =>
    simp only [Option.some.injEq]
    constructor
    · intro hc
      exact ⟨t, rfl, List.elem_iff.mp hc⟩
    · rintro ⟨t', rfl, hmem⟩
      exact List.elem_iff.mpr hmem

/-- C1: `have_matches(entry, S)` is true exactly when some orthographic or
quoted form anywhere in the entry's subtree has text normalizing to a
member of `S`; it is false for the empty combination set and false for an
entry with no headword elements. -/
theorem c1_have_matches_iff (entry : Elem) (ws : List Str) :
    (have_matches entry ws = true ↔
      ∃ el ∈ headwordForms entry, ∃ t, normalize_nfc el.text = some t ∧ t ∈ ws) ∧
    have_matches entry [] = false ∧
    (headwordForms entry = [] → have_matches entry ws = false) := by
  refine ⟨?_, ?_, ?_⟩
  · unfold have_matches
    rw [List.any_eq_true]
    constructor
    · rintro ⟨el, hel, hhit⟩
      exact ⟨el, hel, (formHit_eq_true ws el).mp hhit⟩
    · rintro ⟨el, hel, ht⟩
      exact ⟨el, hel, (formHit_eq_true ws el).mpr ht⟩
  · unfold have_matches
    rw [List.any_eq_false]
    intro el _ h
    rcases (formHit_eq_true [] el).mp h with ⟨t, _, ht⟩
    simp at ht
  · intro h
    unfold have_matches
    rw [h]
    rfl

theorem c1_have_matches_iff_witness :
    have_matches sampleEntry ["dog".toList] = true ∧
    have_matches bareEntry ["dog".toList] = false := by
  constructor
  · exact (c1_have_matches_iff sampleEntry ["dog".toList]).1.mpr
      ⟨sampleOrth, List.Mem.head _, "dog".toList, by decide, List.Mem.head _⟩
  · exact (c1_have_matches_iff bareEntry ["dog".toList]).2.2 rfl

/-- C3 (counterexample): decomposing the empty sentence does not yield the
empty sequence; it yields the one-element sequence holding the empty
combination, because splitting `''` on whitespace gives one empty token. -/
theorem c3_empty_counterexample :
    parse_sentence "".toList ≠ [] ∧ parse_sentence "".toList = [[]] := by
  constructor <;> decide

/-- C3 (amended): `decompose("")` returns the one-element sequence
containing the empty combination, and an entry matches the empty sentence
exactly when one of its headword elements has text normalizing to the
empty string (for example whitespace-only text). -/
theorem c3_empty_amended :
    parse_sentence "".toList = [[]] ∧
    ∀ entry : Elem,
      (have_matches entry (parse_sentence "".toList) = true ↔
        ∃ el ∈ headwordForms entry, normalize_nfc el.text = some []) := by
  refine ⟨by decide, fun entry => ?_⟩
  have h : parse_sentence "".toList = [[]] := by decide
  rw [h]
  unfold have_matches
  rw [List.any_eq_true]
  constructor
  · rintro ⟨el, hel, hhit⟩
    rcases (formHit_eq_true [[]] el).mp hhit with ⟨t, hnn, hmem⟩
    simp only [List.mem_singleton] at hmem
    subst hmem
    exact ⟨el, hel, hnn⟩
  · rintro ⟨el, hel, hnn⟩
    exact ⟨el, hel, (formHit_eq_true [[]] el).mpr ⟨[], hnn, by simp⟩⟩

theorem c3_empty_amended_witness :
    have_matches spaceEntry (parse_sentence "".toList) = true :=
  (c3_empty_amended.2 spaceEntry).mpr ⟨spaceOrth, List.Mem.head _, by decide⟩

/-- C4: evaluating the pre-formatting pass at the failing input: a `ref`
element, which the claim says is left untouched, gets its text prefixed
with an opening parenthesis and its tail set to a closing parenthesis,
because the second tag pattern is unanchored at the end and matches the
prefix `re` of `ref`. -/
theorem c4_ref_parenthesized :
    (preformat refElem).text = some "(x".toList ∧
    (preformat refElem).tail = some ")".toList ∧
    refElem.text = some "x".toList ∧ refElem.tail = none := by
  exact ⟨by decide, by decide, rfl, rfl⟩

/-- C5: `translate` never mutates the supplied entry trees: the state of
the entry list after the call is the list that was passed in, every node
unchanged; highlighting and pre-formatting act on the per-match deep
copies only. -/
theorem c5_translate_never_mutates (s : Str) (es : List Elem) :
    (translate s es).2 = es := rfl

/-- C9: rendering is not side-effect-free on its argument: the element
returned by `element_to_text` differs from the one supplied, for an
unbracketed pronunciation element (text rewritten to `[text]`) and for a
`gramGrp` element (text and tail parenthesized); `translate` keeps the
supplied dictionary intact by rendering private copies. -/
theorem c9_render_mutates_in_place :
    ((element_to_text pronKat).map (fun r => r.2.text) = some (some "[kæt]".toList) ∧
      pronKat.text = some "kæt".toList ∧
      (element_to_text pronKat).map (fun r => r.2.text) ≠ some pronKat.text) ∧
    ((element_to_text gramEx).map (fun r => (r.2.text, r.2.tail))
        = some (some "(x".toList, some "y)".toList) ∧
      gramEx.text = some "x".toList ∧ gramEx.tail = some "y".toList) ∧
    (translate "kæt".toList [pronKat]).2 = [pronKat] := by
  exact ⟨⟨by decide, rfl, by decide⟩, ⟨by decide, rfl, rfl⟩, rfl⟩

/-- C10: `load_entries` returns all `entry` elements in document order
followed by all `entryFree` elements in document order, so a document
mixing the two kinds yields an entry list grouped by tag kind rather than
overall document order. -/
theorem c10_entries_grouped_by_kind :
    (∀ root : Elem,
      load_entries root
        = (descendantsList root.children).filter (fun e => e.tag == teiTag "entry")
          ++ (descendantsList root.children).filter (fun e => e.tag == teiTag "entryFree")) ∧
    load_entries mixedRoot = [entB, freeA] ∧
    docOrderEntries mixedRoot = [freeA, entB] ∧
    (load_entries mixedRoot).map Elem.text ≠ (docOrderEntries mixedRoot).map Elem.text := by
  exact ⟨fun root => rfl, rfl, rfl, by decide⟩

theorem leadsWith_append (l r : Str) : leadsWith l (l ++ r) = true := by
  induction l with
  | nil => rfl
  | cons c cs ih => simp [leadsWith, ih]

theorem leadsWith_self (l : Str) : leadsWith l l = true := by
  simpa using leadsWith_append l []

theorem mem_afterBraces (u rest : Str) : rest ∈ afterBraces (u ++ '\x7d' :: rest) := by
  induction u with
  | nil => simp [afterBraces]
  | cons c cs ih =>
    simp only [List.cons_append, afterBraces]
    split
    · exact List.mem_cons_of_mem _ ih
    · exact ih

theorem altStartHit_of_mem {alts : List Str} {nm : Str} (hnm : nm ∈ alts) :
    altStartHit alts nm = true :=
  List.any_eq_true.mpr ⟨nm, hnm, leadsWith_self nm⟩

theorem nsAltMatch_of_alt {alts : List Str} {nm : Str} (hnm : nm ∈ alts) (tag : Str)
    (htag : tag = nm ∨ ∃ u, tag = '\x7b' :: (u ++ '\x7d' :: nm)) :
    nsAltMatch alts tag = true := by
  rcases htag with rfl | ⟨u, rfl⟩
  · unfold nsAltMatch
    rw [Bool.or_eq_true]
    exact Or.inl (altStartHit_of_mem hnm)
  · unfold nsAltMatch
    rw [Bool.or_eq_true]
    refine Or.inr ?_
    rw [Bool.and_eq_true]
    exact ⟨by decide, List.any_eq_true.mpr
      ⟨nm, mem_afterBraces u nm, altStartHit_of_mem hnm⟩⟩

/-- C7: a pronunciation/hyphenation/syllabification/stress element
(with or without a namespace prefix) whose text neither starts with an
opening bracket nor ends with a closing bracket has its text rewritten to
the bracket-wrapped form, with the tail untouched; rendering a
pronunciation element with unbracketed text yields the bracketed text,
and an already-bracketed text is rendered unchanged. -/
theorem c7_pron_bracketing :
    (∀ (nm tag t : Str) (tl : Option Str) (ats : List (Str × Str)) (ch : List Elem),
      nm ∈ ["pron", "hyph", "syll", "stress"].map String.toList →
      (tag = nm ∨ ∃ u, tag = '\x7b' :: (u ++ '\x7d' :: nm)) →
      firstIs '[' t = false → lastIs ']' t = false →
      (preformat (Elem.mk tag (some t) tl ats ch)).text = some ('[' :: (t ++ [']'])) ∧
      (preformat (Elem.mk tag (some t) tl ats ch)).tail = tl) ∧
    (element_to_text pronKat).map Prod.fst = some "[kæt]".toList ∧
    (element_to_text pronKatBr).map Prod.fst = some "[kæt]".toList := by
  refine ⟨fun nm tag t tl ats ch hnm htag h1 h2 => ?_, by decide, by decide⟩
  have hbr : brMatch tag = true := nsAltMatch_of_alt hnm tag htag
  constructor
  · show preText tag (some t) = _
    simp [preText, hbr, h1, h2]
  · show preTail tag tl = tl
    simp [preTail, hbr]

theorem c7_pron_bracketing_witness :
    (preformat (Elem.mk "pron".toList (some "kæt".toList) none [] [])).text
      = some ('[' :: ("kæt".toList ++ [']'])) :=
  (c7_pron_bracketing.1 "pron".toList "pron".toList "kæt".toList none [] []
    (by decide) (Or.inl rfl) (by decide) (by decide)).1

theorem flatMapCongr {α β : Type} {l : List α} {f g : α → List β}
    (h : ∀ a ∈ l, f a = g a) : l.flatMap f = l.flatMap g := by
  induction l with
  | nil => rfl
  | cons a as ih =>
    simp only [List.flatMap_cons]
    rw [h a (List.mem_cons_self a as), ih (fun x hx => h x (List.mem_cons_of_mem _ hx))]

theorem lengthFlatMap {α β : Type} (l : List α) (f : α → List β) :
    (l.flatMap f).length = (l.map (fun a => (f a).length)).sum := by
  induction l with
  | nil => rfl
  | cons a as ih => simp [List.flatMap_cons, ih]

theorem sumMapSucc (l : List Nat) (f : Nat → Nat) :
    (l.map (fun x => f x + 1)).sum = (l.map f).sum + l.length := by
  induction l with
  | nil => rfl
  | cons a as ih =>
    simp only [List.map_cons, List.sum_cons, List.length_cons, ih]
    omega

theorem twoMulSumRangeSub (n : Nat) :
    2 * ((List.range n).map (fun i => n - i)).sum = n * (n + 1) := by
  induction n with
  | zero => rfl
  | succ n ih =>
    rw [List.range_succ, List.map_append, List.sum_append]
    have h1 : (List.range n).map (fun i => n + 1 - i)
        = (List.range n).map (fun i => (n - i) + 1) := by
      apply List.map_congr_left
      intro i hi
      have : i < n := List.mem_range.mp hi
      omega
    rw [h1, sumMapSucc, List.length_range]
    have h2 : (([n].map (fun i => n + 1 - i)).sum : Nat) = 1 := by simp
    rw [h2]
    have h3 : 2 * ((((List.range n).map (fun i => n - i)).sum + n) + 1)
        = 2 * ((List.range n).map (fun i => n - i)).sum + 2 * n + 2 := by ring
    rw [h3, ih]
    ring

theorem rangeDown_length (hi lo : Nat) : (rangeDown hi lo).length = hi - lo := by
  simp [rangeDown]

theorem parse_sentence_eq_orderedSlices (s : Str) :
    parse_sentence s = orderedSlices ((splitWS s).map normalizeStr) := by
  refine flatMapCongr ?_
  intro i hi
  unfold rangeDown
  rw [List.map_reverse, List.map_reverse]
  congr 1
  rw [List.range'_eq_map_range, List.range'_eq_map_range, List.map_map, List.map_map]
  apply List.map_congr_left
  intro k hk
  simp only [Function.comp_apply]
  congr 2
  omega

theorem orderedSlices_length (ws : List Str) :
    2 * (orderedSlices ws).length = ws.length * (ws.length + 1) := by
  unfold orderedSlices
  rw [lengthFlatMap]
  have h : (List.range ws.length).map
        (fun i => ((rangeDown (ws.length - i) 0).map
          (fun len => joinWith [' '] ((ws.drop i).take len))).length)
      = (List.range ws.length).map (fun i => ws.length - i) := by
    apply List.map_congr_left
    intro i hi
    rw [List.length_map, rangeDown_length]
    omega
  rw [h, twoMulSumRangeSub]

/-- C2: `decompose` enumerates, for each start index left to right, the
space-joined contiguous slices of the normalized word sequence in order
of decreasing length, and for a sentence of `N` (non-empty) words it
yields exactly `N*(N+1)/2` combinations. -/
theorem c2_decompose_combinations (s : Str) (N : Nat)
    (hN : (splitWS s).length = N)
    (_hword : ∀ w ∈ splitWS s, w ≠ []) :
    parse_sentence s = orderedSlices ((splitWS s).map normalizeStr) ∧
    2 * (parse_sentence s).length = N * (N + 1) ∧
    (parse_sentence s).length = N * (N + 1) / 2 := by
  have heq := parse_sentence_eq_orderedSlices s
  have hlen : 2 * (parse_sentence s).length = N * (N + 1) := by
    rw [heq, orderedSlices_length, List.length_map, hN]
  exact ⟨heq, hlen, by omega⟩

theorem c2_decompose_combinations_witness :
    parse_sentence "x y z".toList
      = ["x y z".toList, "x y".toList, "x".toList, "y z".toList, "y".toList, "z".toList] ∧
    2 * (parse_sentence "x y z".toList).length = 3 * (3 + 1) := by
  exact ⟨by decide,
    (c2_decompose_combinations "x y z".toList 3 (by decide) (by decide)).2.1⟩

theorem renderLoop_some {l : List Elem} {ts : List Str} (h : renderLoop l = some ts) :
    ts.length = l.length ∧ ∀ i : Nat, (l[i]?).bind renderEntry = ts[i]? := by
  induction l generalizing ts with
  | nil =>
    simp only [renderLoop, Option.some.injEq] at h
    subst h
    exact ⟨rfl, fun i => by simp⟩
  | cons e es ih =>
    unfold renderLoop at h
    cases he : element_to_text (highlight_orths_and_quoutes e) with
    | none => rw [he] at h; simp at h
    | some r =>
      rw [he] at h
      cases hrest : renderLoop es with
      | none => rw [hrest] at h; simp at h
      | some ts' =>
        rw [hrest] at h
        simp only [Option.some.injEq] at h
        subst h
        obtain ⟨hlen, hpt⟩ := ih hrest
        refine ⟨by simp [hlen], fun i => ?_⟩
        cases i with
        | zero => simp [renderEntry, he]
        | succ n => simpa using hpt n

/-- C6: `translate` yields exactly one rendered string per matching
entry, in the entries' supplied relative order (the `i`-th output is the
rendering of the `i`-th matching entry), and the empty sequence, not an
error, when nothing matches. -/
theorem c6_translate_order (s : Str) (es : List Elem) :
    (matchedEntries s es = [] → (translate s es).1 = some []) ∧
    ∀ ts, (translate s es).1 = some ts →
      ts.length = (matchedEntries s es).length ∧
      ∀ i : Nat, ((matchedEntries s es)[i]?).bind renderEntry = ts[i]? := by
  have htr : (translate s es).1 = renderLoop (matchedEntries s es) := by
    show renderLoop ((es.filter _).map deepcopy) = _
    rw [show (es.filter (fun e => have_matches e (parse_sentence s))).map deepcopy
          = es.filter (fun e => have_matches e (parse_sentence s)) from List.map_id' _]
    rfl
  constructor
  · intro h
    rw [htr, h]
    rfl
  · intro ts hts
    rw [htr] at hts
    exact renderLoop_some hts

theorem c6_translate_order_witness :
    (["<b>dog</b>".toList]).length = (matchedEntries "dog".toList [sampleEntry]).length ∧
    (translate "jump".toList [sampleEntry]).1 = some [] := by
  constructor
  · exact ((c6_translate_order "dog".toList [sampleEntry]).2
      ["<b>dog</b>".toList] (by decide)).1
  · exact (c6_translate_order "jump".toList [sampleEntry]).1 rfl

theorem lookup_mem {α β : Type} [BEq α] [LawfulBEq α] {a : α} {b : β} :
    ∀ {l : List (α × β)}, l.lookup a = some b → (a, b) ∈ l := by
  intro l
  induction l with
  | nil => intro h; simp [List.lookup] at h
  | cons p ps ih =>
    intro h
    cases p with
    | mk k v =>
      rw [List.lookup] at h
      cases hak : a == k with
      | true =>
        rw [hak] at h
        simp only [Option.some.injEq] at h
        have hk : a = k := eq_of_beq hak
        subst hk
        subst h
        exact List.Mem.head _
      | false =>
        rw [hak] at h
        exact List.mem_cons_of_mem _ (ih h)

theorem cfTable_out_unmapped :
    ∀ p ∈ casefoldTable, ∀ d ∈ p.2, casefoldTable.lookup d = none := by decide

theorem dcTable_key_unmapped_out_unmapped :
    ∀ p ∈ decompTable, casefoldTable.lookup p.1 = none →
      ∀ d ∈ p.2, casefoldTable.lookup d = none := by decide

theorem compTable_first_unmapped_out_unmapped :
    ∀ p ∈ compTable, casefoldTable.lookup p.1.1 = none →
      casefoldTable.lookup p.2 = none := by decide

theorem dcTable_out_dcUnmapped :
    ∀ p ∈ decompTable, ∀ d ∈ p.2, decompTable.lookup d = none := by decide

theorem compTable_decomp_inverse :
    ∀ p ∈ compTable, decompTable.lookup p.2 = some [p.1.1, p.1.2] := by decide

theorem compTable_out_not_first :
    ∀ p ∈ compTable, ∀ q ∈ compTable, q.1.1 ≠ p.2 := by decide

theorem cfTable_out_nonspace :
    ∀ p ∈ casefoldTable, ∀ d ∈ p.2, isPySpace d = false := by decide

theorem cfTable_out_ne_nil : ∀ p ∈ casefoldTable, p.2 ≠ [] := by decide

theorem dcTable_out_ne_nil : ∀ p ∈ decompTable, p.2 ≠ [] := by decide

theorem dcTable_out_nonspace :
    ∀ p ∈ decompTable, ∀ d ∈ p.2, isPySpace d = false := by decide

theorem compTable_out_nonspace : ∀ p ∈ compTable, isPySpace p.2 = false := by decide

theorem casefoldChar_unmapped {c : Char} (h : casefoldTable.lookup c = none) :
    casefoldChar c = [c] := by
  simp [casefoldChar, h]

theorem decomposeChar_unmapped {c : Char} (h : decompTable.lookup c = none) :
    decomposeChar c = [c] := by
  simp [decomposeChar, h]

theorem mem_casefoldChar_unmapped {c d : Char} (hd : d ∈ casefoldChar c) :
    casefoldTable.lookup d = none := by
  unfold casefoldChar at hd
  cases h : casefoldTable.lookup c with
  | none =>
    rw [h] at hd
    simp only [Option.getD_none, List.mem_singleton] at hd
    subst hd
    exact h
  | some v =>
    rw [h] at hd
    simp only [Option.getD_some] at hd
    exact cfTable_out_unmapped (c, v) (lookup_mem h) d hd

theorem mem_decomposeChar_unmapped_cf {c d : Char}
    (hc : casefoldTable.lookup c = none) (hd : d ∈ decomposeChar c) :
    casefoldTable.lookup d = none := by
  unfold decomposeChar at hd
  cases h : decompTable.lookup c with
  | none =>
    rw [h] at hd
    simp only [Option.getD_none, List.mem_singleton] at hd
    subst hd
    exact hc
  | some v =>
    rw [h] at hd
    simp only [Option.getD_some] at hd
    exact dcTable_key_unmapped_out_unmapped (c, v) (lookup_mem h) hc d hd

theorem mem_decomposeChar_dcUnmapped {c d : Char} (hd : d ∈ decomposeChar c) :
    decompTable.lookup d = none := by
  unfold decomposeChar at hd
  cases h : decompTable.lookup c with
  | none =>
    rw [h] at hd
    simp only [Option.getD_none, List.mem_singleton] at hd
    subst hd
    exact h
  | some v =>
    rw [h] at hd
    simp only [Option.getD_some] at hd
    exact dcTable_out_dcUnmapped (c, v) (lookup_mem h) d hd

theorem composePair_out_unmapped_cf {a b c : Char}
    (h : composePair a b = some c) (ha : casefoldTable.lookup a = none) :
    casefoldTable.lookup c = none :=
  compTable_first_unmapped_out_unmapped ((a, b), c) (lookup_mem h) ha

theorem composePair_out_none {a b c b' : Char} (h : composePair a b = some c) :
    composePair c b' = none := by
  cases h2 : composePair c b' with
  | none => rfl
  | some d =>
    exact absurd rfl
      (compTable_out_not_first ((a, b), c) (lookup_mem h) ((c, b'), d) (lookup_mem h2))

theorem decomposeChar_of_composePair {a b c : Char} (h : composePair a b = some c) :
    decomposeChar c = [a, b] := by
  have hv := compTable_decomp_inverse ((a, b), c) (lookup_mem h)
  simp [decomposeChar, hv]

theorem casefoldChar_ne_nil (c : Char) : casefoldChar c ≠ [] := by
  unfold casefoldChar
  cases h : casefoldTable.lookup c with
  | none => simp
  | some v => simpa using cfTable_out_ne_nil (c, v) (lookup_mem h)

theorem decomposeChar_ne_nil (c : Char) : decomposeChar c ≠ [] := by
  unfold decomposeChar
  cases h : decompTable.lookup c with
  | none => simp
  | some v => simpa using dcTable_out_ne_nil (c, v) (lookup_mem h)

theorem mem_casefoldChar_nonspace {c d : Char} (hc : isPySpace c = false)
    (hd : d ∈ casefoldChar c) : isPySpace d = false := by
  unfold casefoldChar at hd
  cases h : casefoldTable.lookup c with
  | none =>
    rw [h] at hd
    simp only [Option.getD_none, List.mem_singleton] at hd
    subst hd
    exact hc
  | some v =>
    rw [h] at hd
    simp only [Option.getD_some] at hd
    exact cfTable_out_nonspace (c, v) (lookup_mem h) d hd

theorem mem_decomposeChar_nonspace {c d : Char} (hc : isPySpace c = false)
    (hd : d ∈ decomposeChar c) : isPySpace d = false := by
  unfold decomposeChar at hd
  cases h : decompTable.lookup c with
  | none =>
    rw [h] at hd
    simp only [Option.getD_none, List.mem_singleton] at hd
    subst hd
    exact hc
  | some v =>
    rw [h] at hd
    simp only [Option.getD_some] at hd
    exact dcTable_out_nonspace (c, v) (lookup_mem h) d hd

theorem composePair_out_nonspace {a b c : Char} (h : composePair a b = some c) :
    isPySpace c = false :=
  compTable_out_nonspace ((a, b), c) (lookup_mem h)

theorem cfUnmapped_pyCasefold (s : Str) : cfUnmapped (pyCasefold s) := by
  intro d hd
  rcases List.mem_flatMap.mp hd with ⟨c, _, hmem⟩
  exact mem_casefoldChar_unmapped hmem

theorem cfUnmapped_canonDecompose {s : Str} (h : cfUnmapped s) :
    cfUnmapped (canonDecompose s) := by
  intro d hd
  rcases List.mem_flatMap.mp hd with ⟨c, hc, hmem⟩
  exact mem_decomposeChar_unmapped_cf (h c hc) hmem

theorem dcUnmapped_canonDecompose (s : Str) : dcUnmapped (canonDecompose s) := by
  intro d hd
  rcases List.mem_flatMap.mp hd with ⟨c, _, hmem⟩
  exact mem_decomposeChar_dcUnmapped hmem

theorem cfUnmapped_composeRun {r : Str} :
    ∀ {a : Char}, casefoldTable.lookup a = none → cfUnmapped r →
      cfUnmapped (composeRun a r) := by
  induction r with
  | nil =>
    intro a ha _ d hd
    simp only [composeRun, List.mem_singleton] at hd
    subst hd
    exact ha
  | cons b r' ih =>
    intro a ha hr d hd
    rw [composeRun] at hd
    cases hc : composePair a b with
    | some c =>
      rw [hc] at hd
      exact ih (composePair_out_unmapped_cf hc ha)
        (fun x hx => hr x (List.mem_cons_of_mem _ hx)) d hd
    | none =>
      rw [hc] at hd
      rcases List.mem_cons.mp hd with rfl | hd'
      · exact ha
      · exact ih (hr b (List.Mem.head _))
          (fun x hx => hr x (List.mem_cons_of_mem _ hx)) d hd'

theorem cfUnmapped_compose {t : Str} (h : cfUnmapped t) : cfUnmapped (compose t) := by
  cases t with
  | nil => intro d hd; simp [compose] at hd
  | cons a r =>
    exact cfUnmapped_composeRun (h a (List.Mem.head _))
      (fun x hx => h x (List.mem_cons_of_mem _ hx))

theorem pyCasefold_id {l : Str} (h : cfUnmapped l) : pyCasefold l = l := by
  induction l with
  | nil => rfl
  | cons c cs ih =>
    show casefoldChar c ++ pyCasefold cs = c :: cs
    rw [casefoldChar_unmapped (h c (List.Mem.head _)),
        ih (fun x hx => h x (List.mem_cons_of_mem _ hx))]
    rfl

theorem canonDecompose_id {l : Str} (h : dcUnmapped l) : canonDecompose l = l := by
  induction l with
  | nil => rfl
  | cons c cs ih =>
    show decomposeChar c ++ canonDecompose cs = c :: cs
    rw [decomposeChar_unmapped (h c (List.Mem.head _)),
        ih (fun x hx => h x (List.mem_cons_of_mem _ hx))]
    rfl

theorem composeRun_no_pair {a : Char} (r : Str)
    (h : ∀ b' : Char, composePair a b' = none) :
    composeRun a r = a :: compose r := by
  cases r with
  | nil => rfl
  | cons b r' =>
    rw [composeRun, h b]
    rfl

theorem composeRun_composite {a b c : Char} (h : composePair a b = some c) (r : Str) :
    composeRun c r = c :: compose r :=
  composeRun_no_pair r (fun _ => composePair_out_none h)

theorem canonDecompose_compose : ∀ {t : Str}, dcUnmapped t →
    canonDecompose (compose t) = t := by
  intro t
  match t with
  | [] => intro _; rfl
  | [a] =>
    intro h
    show decomposeChar a ++ [] = [a]
    rw [decomposeChar_unmapped (h a (List.Mem.head _))]
    rfl
  | a :: b :: r =>
    intro h
    show canonDecompose (composeRun a (b :: r)) = a :: b :: r
    rw [composeRun]
    cases hc : composePair a b with
    | some c =>
      show canonDecompose (composeRun c r) = a :: b :: r
      rw [composeRun_composite hc r]
      show decomposeChar c ++ canonDecompose (compose r) = a :: b :: r
      rw [decomposeChar_of_composePair hc,
          canonDecompose_compose
            (fun x hx => h x (List.mem_cons_of_mem _ (List.mem_cons_of_mem _ hx)))]
      rfl
    | none =>
      show canonDecompose (a :: composeRun b r) = a :: b :: r
      show decomposeChar a ++ canonDecompose (composeRun b r) = a :: b :: r
      rw [decomposeChar_unmapped (h a (List.Mem.head _))]
      rw [show composeRun b r = compose (b :: r) from rfl,
          canonDecompose_compose (fun x hx => h x (List.mem_cons_of_mem _ hx))]
      rfl
  termination_by t => t.length

theorem getLast?_cons_of_ne_nil {α : Type} {a : α} {as : List α} (h : as ≠ []) :
    (a :: as).getLast? = as.getLast? := by
  cases as with
  | nil => exact absurd rfl h
  | cons b bs => exact List.getLast?_cons_cons

theorem noLeadSp_dropWhile (l : Str) : noLeadSp (l.dropWhile isPySpace) := by
  induction l with
  | nil => intro c h; simp at h
  | cons a as ih =>
    intro c h
    rw [List.dropWhile_cons] at h
    cases hpa : isPySpace a with
    | true =>
      rw [hpa] at h
      simp only [if_true] at h
      exact ih c h
    | false =>
      rw [hpa] at h
      simp only [Bool.false_eq_true, if_false, List.head?_cons, Option.some.injEq] at h
      subst h
      exact hpa

theorem dropWhile_getLast? (l : Str) (h : l.dropWhile isPySpace ≠ []) :
    (l.dropWhile isPySpace).getLast? = l.getLast? := by
  induction l with
  | nil => simp at h
  | cons a as ih =>
    rw [List.dropWhile_cons] at h ⊢
    by_cases hpa : isPySpace a = true
    · rw [if_pos hpa] at h ⊢
      have has : as ≠ [] := by
        intro he
        subst he
        simp at h
      rw [ih h, getLast?_cons_of_ne_nil has]
    · rw [if_neg hpa]

theorem pyStrip_noLead (s : Str) : noLeadSp (pyStrip s) := by
  unfold pyStrip
  intro c h
  rw [List.head?_reverse] at h
  by_cases hv : (s.dropWhile isPySpace).reverse.dropWhile isPySpace = []
  · rw [hv] at h
    simp at h
  · rw [dropWhile_getLast? _ hv, List.getLast?_reverse] at h
    exact noLeadSp_dropWhile s c h

theorem pyStrip_noTrail (s : Str) : noTrailSp (pyStrip s) := by
  unfold pyStrip
  intro c h
  rw [List.getLast?_reverse] at h
  exact noLeadSp_dropWhile _ c h

theorem dropWhile_eq_self_of_noLead {l : Str}
    (h : ∀ c, l.head? = some c → isPySpace c = false) :
    l.dropWhile isPySpace = l := by
  cases l with
  | nil => rfl
  | cons a as => simp [List.dropWhile_cons, h a rfl]

theorem pyStrip_id {l : Str} (h1 : noLeadSp l) (h2 : noTrailSp l) : pyStrip l = l := by
  unfold pyStrip
  rw [dropWhile_eq_self_of_noLead h1]
  rw [dropWhile_eq_self_of_noLead (fun c hc => h2 c (by rwa [List.head?_reverse] at hc))]
  exact List.reverse_reverse l

theorem flatMap_ne_nil {f : Char → Str} (hne : ∀ c, f c ≠ []) {l : Str} (h : l ≠ []) :
    l.flatMap f ≠ [] := by
  cases l with
  | nil => exact absurd rfl h
  | cons a as =>
    rw [List.flatMap_cons]
    intro hc
    rcases List.append_eq_nil.mp hc with ⟨h1, _⟩
    exact hne a h1

theorem noLeadSp_flatMap {f : Char → Str} {l : Str}
    (hne : ∀ c, f c ≠ [])
    (hsp : ∀ c d, isPySpace c = false → d ∈ f c → isPySpace d = false)
    (h : noLeadSp l) : noLeadSp (l.flatMap f) := by
  cases l with
  | nil => intro c hc; simp at hc
  | cons a as =>
    intro d hd
    rw [List.flatMap_cons] at hd
    cases hfa : f a with
    | nil => exact absurd hfa (hne a)
    | cons x xs =>
      rw [hfa] at hd
      simp only [List.cons_append, List.head?_cons, Option.some.injEq] at hd
      subst hd
      exact hsp a _ (h a rfl) (by rw [hfa]; exact List.Mem.head xs)

theorem noTrailSp_flatMap {f : Char → Str}
    (hne : ∀ c, f c ≠ [])
    (hsp : ∀ c d, isPySpace c = false → d ∈ f c → isPySpace d = false) :
    ∀ {l : Str}, noTrailSp l → noTrailSp (l.flatMap f) := by
  intro l
  induction l with
  | nil => intro _ c hc; simp at hc
  | cons a as ih =>
    intro h d hd
    rw [List.flatMap_cons] at hd
    by_cases hasnil : as = []
    · subst hasnil
      simp only [List.flatMap_nil, List.append_nil] at hd
      exact hsp a d (h a rfl) (List.mem_of_getLast?_eq_some hd)
    · have hfne : as.flatMap f ≠ [] := flatMap_ne_nil hne hasnil
      rw [List.getLast?_append] at hd
      cases hg : (as.flatMap f).getLast? with
      | none =>
        rw [List.getLast?_eq_none_iff] at hg
        exact absurd hg hfne
      | some x =>
        rw [hg] at hd
        have hxd : some x = some d := hd
        simp only [Option.some.injEq] at hxd
        subst hxd
        exact ih (fun c hc => h c (by rwa [getLast?_cons_of_ne_nil hasnil])) x hg

theorem composeRun_ne_nil : ∀ {r : Str} {a : Char}, composeRun a r ≠ [] := by
  intro r
  induction r with
  | nil => intro a; simp [composeRun]
  | cons b r' ih =>
    intro a
    rw [composeRun]
    cases hc : composePair a b with
    | some c => exact ih
    | none => simp

theorem noLeadSp_composeRun {r : Str} :
    ∀ {a : Char}, isPySpace a = false → noLeadSp (composeRun a r) := by
  induction r with
  | nil =>
    intro a ha c hc
    simp only [composeRun, List.head?_cons, Option.some.injEq] at hc
    subst hc
    exact ha
  | cons b r' ih =>
    intro a ha
    rw [composeRun]
    cases hc : composePair a b with
    | some c => exact ih (composePair_out_nonspace hc)
    | none =>
      intro d hd
      simp only [List.head?_cons, Option.some.injEq] at hd
      subst hd
      exact ha

theorem noLeadSp_compose {t : Str} (h : noLeadSp t) : noLeadSp (compose t) := by
  cases t with
  | nil => intro c hc; simp [compose] at hc
  | cons a r => exact noLeadSp_composeRun (h a rfl)

theorem noTrailSp_composeRun {r : Str} :
    ∀ {a : Char}, (∀ c, (a :: r).getLast? = some c → isPySpace c = false) →
      noTrailSp (composeRun a r) := by
  induction r with
  | nil =>
    intro a h c hc
    simp only [composeRun] at hc
    exact h c hc
  | cons b r' ih =>
    intro a h
    rw [composeRun]
    cases hc : composePair a b with
    | some c =>
      apply ih
      intro x hx
      by_cases hr' : r' = []
      · subst hr'
        simp only [List.getLast?_singleton, Option.some.injEq] at hx
        subst hx
        exact composePair_out_nonspace hc
      · rw [getLast?_cons_of_ne_nil hr'] at hx
        apply h x
        rw [getLast?_cons_of_ne_nil (List.cons_ne_nil b r'),
            getLast?_cons_of_ne_nil hr']
        exact hx
    | none =>
      intro d hd
      rw [getLast?_cons_of_ne_nil composeRun_ne_nil] at hd
      refine ih ?_ d hd
      intro x hx
      exact h x (by rw [getLast?_cons_of_ne_nil (List.cons_ne_nil b r')]; exact hx)

theorem noTrailSp_compose {t : Str} (h : noTrailSp t) : noTrailSp (compose t) := by
  cases t with
  | nil => intro c hc; simp [compose] at hc
  | cons a r => exact noTrailSp_composeRun h

theorem normalizeStr_idem (s : Str) : normalizeStr (normalizeStr s) = normalizeStr s := by
  have hcfU : cfUnmapped (canonDecompose (pyCasefold (pyStrip s))) :=
    cfUnmapped_canonDecompose (cfUnmapped_pyCasefold _)
  have hdcU : dcUnmapped (canonDecompose (pyCasefold (pyStrip s))) :=
    dcUnmapped_canonDecompose _
  have hLead : noLeadSp (normalizeStr s) := by
    apply noLeadSp_compose
    apply noLeadSp_flatMap decomposeChar_ne_nil
      (fun c d hc hd => mem_decomposeChar_nonspace hc hd)
    apply noLeadSp_flatMap casefoldChar_ne_nil
      (fun c d hc hd => mem_casefoldChar_nonspace hc hd)
    exact pyStrip_noLead s
  have hTrail : noTrailSp (normalizeStr s) := by
    apply noTrailSp_compose
    apply noTrailSp_flatMap decomposeChar_ne_nil
      (fun c d hc hd => mem_decomposeChar_nonspace hc hd)
    apply noTrailSp_flatMap casefoldChar_ne_nil
      (fun c d hc hd => mem_casefoldChar_nonspace hc hd)
    exact pyStrip_noTrail s
  show nfc (pyCasefold (pyStrip (normalizeStr s))) = normalizeStr s
  rw [pyStrip_id hLead hTrail]
  rw [pyCasefold_id (show cfUnmapped (normalizeStr s) from cfUnmapped_compose hcfU)]
  show compose (canonDecompose (compose (canonDecompose (pyCasefold (pyStrip s)))))
      = normalizeStr s
  rw [canonDecompose_compose hdcU]
  rfl

/-- C8: `normalize_nfc` is idempotent: applying trim, Unicode case
folding and NFC composition in that order a second time leaves the result
unchanged (and an absent text stays absent). -/
theorem c8_normalize_idempotent (x : Option Str) :
    normalize_nfc (normalize_nfc x) = normalize_nfc x := by
  cases x with
  | none => rfl
  | some s =>
    show some (normalizeStr (normalizeStr s)) = some (normalizeStr s)
    rw [normalizeStr_idem]

end FreeLingvo
